import Mathlib

/-!
Verification development for `stablemarriage/stable_marriage.py`.

The Python program assigns priority-carrying devices to capacity-bounded
nodes of a connected graph.  Each node keeps its assigned devices in a
CPython `heapq` binary min-heap ordered by `Device.__lt__` (priority
comparison only); `Node.add_device` is `heappush` below capacity and
`heappushpop` at capacity.  `Probe.find_node` explores the graph ring by
ring from the device's origin node, trying one random candidate per
iteration, and on eviction restarts the evicted device's own search.

This file shallowly embeds those operations over plain Lean data
(`List Device` for the per-node heap, `Finset Nat` for node sets) and
proves or refutes the frozen specification claims about them.
-/

namespace StableMarriage

open List

/-- A device of the connected graph: an auto-incremented unique `id` and a
`priority` (the ordinal value of the `Priority` enum, which is `1..5` in the
program; modelled as a natural number since the code only ever compares
ordinals).  Python `Device.__eq__` compares ids, and distinct program devices
have distinct ids, so structural equality models Python object identity. -/
structure Device where
  id : Nat
  priority : Nat
deriving DecidableEq, Repr

/-- Python `Device.__lt__`: comparison by priority ordinal only
(`self.priority.value < other.priority.value`). -/
def devLt (a b : Device) : Bool := decide (a.priority < b.priority)

/-- Default device used for out-of-range `List.getD` reads; every read made by
the heap code below is in range, mirroring CPython list indexing. -/
def dDefault : Device := ⟨0, 0⟩

/-- The while-loop of CPython `heapq._siftdown(heap, startpos, pos)` with the
moving `newitem` made explicit: parents along the path from `pos` toward
`startpos` that are greater than `newitem` are shifted down one slot, and
`newitem` is written at the final position. -/
def siftdownLoop (heap : List Device) (startpos pos : Nat) (newitem : Device) :
    List Device :=
  if startpos < pos then
    let parentpos := (pos - 1) / 2
    let parent := heap.getD parentpos dDefault
    if devLt newitem parent then
      siftdownLoop (heap.set pos parent) startpos parentpos newitem
    else
      heap.set pos newitem
  else
    heap.set pos newitem
termination_by pos
decreasing_by
  simp_wf
  omega

/-- CPython `heapq._siftdown(heap, startpos, pos)`: `newitem` is read from
`heap[pos]` and bubbled toward the root. -/
def siftdown (heap : List Device) (startpos pos : Nat) : List Device :=
  siftdownLoop heap startpos pos (heap.getD pos dDefault)

/-- CPython `heapq.heappush(heap, item)`: append `item`, then sift it down
from the new leaf `len(heap) - 1` toward the root. -/
def heappush (heap : List Device) (item : Device) : List Device :=
  siftdown (heap ++ [item]) 0 heap.length

/-- The while-loop of CPython `heapq._siftup(heap, pos)`: the smaller child is
repeatedly moved up into the hole at `pos` until the hole reaches a leaf;
returns the final list together with the leaf position of the hole. -/
def siftupLoop (heap : List Device) (endpos pos : Nat) : List Device × Nat :=
  if h : 2 * pos + 1 < endpos then
    let childpos := 2 * pos + 1
    let rightpos := childpos + 1
    let c :=
      if rightpos < endpos ∧
          ¬ devLt (heap.getD childpos dDefault) (heap.getD rightpos dDefault)
      then rightpos
      else childpos
    siftupLoop (heap.set pos (heap.getD c dDefault)) endpos c
  else
    (heap, pos)
termination_by endpos - pos
decreasing_by
  simp_wf
  split <;> omega

/-- CPython `heapq._siftup(heap, pos)`: save `newitem = heap[pos]`, bubble the
smaller child up to a leaf, put `newitem` in the emptied leaf and sift it
down toward `pos`. -/
def siftup (heap : List Device) (pos : Nat) : List Device :=
  let newitem := heap.getD pos dDefault
  let r := siftupLoop heap heap.length pos
  siftdownLoop (r.1.set r.2 newitem) pos r.2 newitem

/-- CPython `heapq.heappushpop(heap, item)`: if the heap is nonempty and its
root is smaller than `item`, swap `item` with the root, restore the heap with
`_siftup`, and return the old root; otherwise return `item` with the heap
untouched.  Returns the new heap together with the returned device. -/
def heappushpop (heap : List Device) (item : Device) : List Device × Device :=
  match heap with
  | [] => ([], item)
  | h0 :: t =>
    if devLt h0 item then (siftup (item :: t) 0, h0) else (h0 :: t, item)

/-- `Node.add_device(device)` (stable_marriage.py lines 52-62): below capacity
`heappush` and return `None`; at capacity `heappushpop` and return the popped
device.  The result pairs the node's new `devices` list with the returned
value (`none` models Python `None`). -/
def add_device (devices : List Device) (resources : Nat) (device : Device) :
    List Device × Option Device :=
  if devices.length < resources then
    (heappush devices device, none)
  else
    let r := heappushpop devices device
    (r.1, some r.2)

/-- Device collections reachable by a sequence of `add_device` calls on a node
created with `resources` slots (a fresh node starts with `devices = []`). -/
inductive ReachableDevs (resources : Nat) : List Device → Prop
  | nil : ReachableDevs resources []
  | step (l : List Device) (d : Device) (h : ReachableDevs resources l) :
      ReachableDevs resources (add_device l resources d).1

theorem siftdownLoop_length (pos : Nat) (heap : List Device)
    (startpos : Nat) (newitem : Device) :
    (siftdownLoop heap startpos pos newitem).length = heap.length := by
  induction pos using Nat.strong_induction_on generalizing heap with
  | _ pos ih =>
    unfold siftdownLoop
    split
    · dsimp only
      split
      · rw [ih ((pos - 1) / 2) (by omega)]
        exact List.length_set ..
      · exact List.length_set ..
    · exact List.length_set ..

theorem siftupLoop_length (n : Nat) : ∀ (heap : List Device) (endpos pos : Nat),
    endpos - pos ≤ n → (siftupLoop heap endpos pos).1.length = heap.length := by
  induction n with
  | zero =>
    intro heap endpos pos hle
    unfold siftupLoop
    split
    · omega
    · rfl
  | succ n ih =>
    intro heap endpos pos hle
    unfold siftupLoop
    split
    · rename_i h
      dsimp only
      split
      · rw [ih _ endpos (2 * pos + 1 + 1) (by omega)]
        exact List.length_set ..
      · rw [ih _ endpos (2 * pos + 1) (by omega)]
        exact List.length_set ..
    · rfl

theorem siftup_length (heap : List Device) (pos : Nat) :
    (siftup heap pos).length = heap.length := by
  unfold siftup
  rw [siftdownLoop_length, List.length_set,
    siftupLoop_length (heap.length - pos) heap heap.length pos (le_refl _)]

theorem heappush_length (heap : List Device) (item : Device) :
    (heappush heap item).length = heap.length + 1 := by
  unfold heappush siftdown
  rw [siftdownLoop_length, List.length_append, List.length_cons,
    List.length_nil]

theorem heappushpop_length (heap : List Device) (item : Device) :
    (heappushpop heap item).1.length = heap.length := by
  unfold heappushpop
  match heap with
  | [] => rfl
  | h0 :: t =>
    simp only
    split
    · rw [siftup_length]
      simp
    · rfl

theorem add_device_length (l : List Device) (res : Nat) (d : Device) :
    (add_device l res d).1.length =
      if l.length < res then l.length + 1 else l.length := by
  unfold add_device
  split
  · simp only [heappush_length]
  · simp only [heappushpop_length]

/-- C1: for every node and every sequence of `add_device` calls on it, the
number of devices in the node's `devices` heap never exceeds the node's
`resources` capacity: every collection reachable from the empty initial
collection by `add_device` steps has length at most `resources`. -/
theorem claim1_capacity_invariant (resources : Nat) (l : List Device)
    (h : ReachableDevs resources l) : l.length ≤ resources := by
  induction h with
  | nil => exact Nat.zero_le _
  | step l d _ ih =>
    rw [add_device_length]
    split <;> omega

/-- Witness for C1 at a concrete input: one `add_device` call on a fresh
capacity-1 node yields a collection of size at most 1. -/
theorem claim1_capacity_invariant_witness :
    (add_device [] 1 ⟨0, 3⟩).1.length ≤ 1 :=
  claim1_capacity_invariant 1 (add_device [] 1 ⟨0, 3⟩).1
    (ReachableDevs.step [] ⟨0, 3⟩ ReachableDevs.nil)

theorem getD_set_ne (l : List Device) (i j : Nat) (a : Device)
    (h : i ≠ j) : (l.set i a).getD j dDefault = l.getD j dDefault := by
  simp [List.getD_eq_getElem?_getD, List.getElem?_set_ne h]

theorem getD_set_eq (l : List Device) (i : Nat) (a : Device)
    (h : i < l.length) : (l.set i a).getD i dDefault = a := by
  simp [List.getD_eq_getElem?_getD, List.getElem?_set_self, h]

theorem set_getD_self (l : List Device) (i : Nat) (h : i < l.length) :
    l.set i (l.getD i dDefault) = l := by
  induction l generalizing i with
  | nil => simp at h
  | cons x t ih =>
    match i with
    | 0 => rfl
    | i + 1 =>
      simp only [List.length_cons] at h
      simp only [List.getD_cons_succ, List.set_cons_succ]
      rw [ih i (by omega)]

theorem cons_set_swap_perm (t : List Device) (i : Nat) (a b : Device)
    (h : i < t.length) :
    a :: t.set i b ~ b :: t.set i a := by
  induction t generalizing i with
  | nil => simp at h
  | cons x s ih =>
    cases i with
    | zero => exact List.Perm.swap b a s
    | succ i =>
      simp only [List.set_cons_succ]
      calc a :: x :: s.set i b
          ~ x :: a :: s.set i b := List.Perm.swap x a _
        _ ~ x :: b :: s.set i a :=
            List.Perm.cons x (ih i (by simpa using h))
        _ ~ b :: x :: s.set i a := List.Perm.swap b x _

theorem set_set_perm (l : List Device) (i j : Nat) (a : Device)
    (hi : i < l.length) (hj : j < l.length) (hij : i ≠ j) :
    (l.set i (l.getD j dDefault)).set j a ~ l.set i a := by
  induction l generalizing i j with
  | nil => simp at hi
  | cons x t ih =>
    cases i with
    | zero =>
      cases j with
      | zero => exact absurd rfl hij
      | succ j =>
        simp only [List.getD_cons_succ, List.set_cons_zero,
          List.set_cons_succ]
        have hjt : j < t.length := by simpa using hj
        calc t.getD j dDefault :: t.set j a
            ~ a :: t.set j (t.getD j dDefault) :=
              cons_set_swap_perm t j (t.getD j dDefault) a hjt
          _ = a :: t := by rw [set_getD_self t j hjt]
    | succ i =>
      cases j with
      | zero =>
        simp only [List.getD_cons_zero, List.set_cons_succ,
          List.set_cons_zero]
        exact cons_set_swap_perm t i a x (by simpa using hi)
      | succ j =>
        simp only [List.getD_cons_succ, List.set_cons_succ]
        exact List.Perm.cons x
          (ih i j (by simpa using hi) (by simpa using hj) (by omega))

theorem siftdownLoop_perm (pos : Nat) (heap : List Device)
    (startpos : Nat) (newitem : Device) (h : pos < heap.length) :
    siftdownLoop heap startpos pos newitem ~ heap.set pos newitem := by
  induction pos using Nat.strong_induction_on generalizing heap with
  | _ pos ih =>
    unfold siftdownLoop
    split
    · dsimp only
      split
      · rename_i hlt _
        have hpp : (pos - 1) / 2 < pos := by omega
        calc siftdownLoop (heap.set pos (heap.getD ((pos - 1) / 2) dDefault))
              startpos ((pos - 1) / 2) newitem
            ~ (heap.set pos (heap.getD ((pos - 1) / 2) dDefault)).set
                ((pos - 1) / 2) newitem :=
              ih _ hpp _ (by simp only [List.length_set]; omega)
          _ ~ heap.set pos newitem :=
              set_set_perm heap pos ((pos - 1) / 2) newitem h (by omega)
                (by omega)
      · exact List.Perm.refl _
    · exact List.Perm.refl _

theorem siftupLoop_spec (n : Nat) : ∀ (heap : List Device) (pos : Nat),
    heap.length - pos ≤ n → pos < heap.length →
    (siftupLoop heap heap.length pos).2 < heap.length ∧
    (∀ x : Device,
      (siftupLoop heap heap.length pos).1.set
          (siftupLoop heap heap.length pos).2 x ~ heap.set pos x) := by
  induction n with
  | zero => intro heap pos hn hp; omega
  | succ n ih =>
    intro heap pos hn hp
    unfold siftupLoop
    split
    · rename_i hc
      dsimp only
      set c := if 2 * pos + 1 + 1 < heap.length ∧
          ¬ devLt (heap.getD (2 * pos + 1) dDefault)
            (heap.getD (2 * pos + 1 + 1) dDefault) = true
        then 2 * pos + 1 + 1 else 2 * pos + 1 with hcdef
      have hcb : pos < c ∧ c < heap.length := by
        rw [hcdef]; split <;> omega
      have hlen : (heap.set pos (heap.getD c dDefault)).length =
          heap.length := List.length_set ..
      have ihr := ih (heap.set pos (heap.getD c dDefault)) c
        (by rw [hlen]; omega) (by rw [hlen]; omega)
      rw [hlen] at ihr
      refine ⟨ihr.1, fun x => ?_⟩
      calc (siftupLoop (heap.set pos (heap.getD c dDefault)) heap.length
              c).1.set
            (siftupLoop (heap.set pos (heap.getD c dDefault)) heap.length
              c).2 x
          ~ (heap.set pos (heap.getD c dDefault)).set c x := ihr.2 x
        _ ~ heap.set pos x :=
            set_set_perm heap pos c x hp hcb.2 (by omega)
    · exact ⟨hp, fun x => List.Perm.refl _⟩

theorem siftup_perm (heap : List Device) (pos : Nat)
    (h : pos < heap.length) :
    siftup heap pos ~ heap := by
  unfold siftup
  have hs := siftupLoop_spec (heap.length - pos) heap pos (le_refl _) h
  have hlen : (siftupLoop heap heap.length pos).1.length = heap.length :=
    siftupLoop_length (heap.length - pos) heap heap.length pos (le_refl _)
  calc siftdownLoop
        ((siftupLoop heap heap.length pos).1.set
          (siftupLoop heap heap.length pos).2 (heap.getD pos dDefault))
        pos (siftupLoop heap heap.length pos).2 (heap.getD pos dDefault)
      ~ ((siftupLoop heap heap.length pos).1.set
          (siftupLoop heap heap.length pos).2 (heap.getD pos dDefault)).set
          (siftupLoop heap heap.length pos).2 (heap.getD pos dDefault) :=
        siftdownLoop_perm _ _ _ _ (by simp only [List.length_set]; omega)
    _ = (siftupLoop heap heap.length pos).1.set
          (siftupLoop heap heap.length pos).2 (heap.getD pos dDefault) :=
        List.set_set ..
    _ ~ heap.set pos (heap.getD pos dDefault) := hs.2 _
    _ = heap := set_getD_self heap pos h

theorem heappush_perm (heap : List Device) (item : Device) :
    heappush heap item ~ item :: heap := by
  unfold heappush siftdown
  have hget : (heap ++ [item]).getD heap.length dDefault = item := by
    simp [List.getD_eq_getElem?_getD, List.getElem?_append_right (le_refl _)]
  rw [hget]
  calc siftdownLoop (heap ++ [item]) 0 heap.length item
      ~ (heap ++ [item]).set heap.length item :=
        siftdownLoop_perm heap.length (heap ++ [item]) 0 item (by simp)
    _ = heap ++ [item] := by
        have h2 := set_getD_self (heap ++ [item]) heap.length (by simp)
        rw [hget] at h2
        exact h2
    _ ~ item :: heap := List.perm_append_singleton item heap

theorem heappushpop_evict_perm (h0 : Device) (t : List Device)
    (item : Device) (h : devLt h0 item = true) :
    (heappushpop (h0 :: t) item).1 ~ item :: t := by
  unfold heappushpop
  dsimp only
  rw [if_pos h]
  exact siftup_perm (item :: t) 0 (by simp)

/-- C7: if `add_device` returns the very device that was passed in (the
"rejected, try elsewhere" signal), the node's `devices` collection is left
completely unchanged by the call.  "Same device" is modelled by structural
equality, which coincides with Python's id-based `__eq__` because program
devices are uniquely identified. -/
theorem claim7_rejection_frame (l : List Device) (res : Nat) (d : Device)
    (h : (add_device l res d).2 = some d) : (add_device l res d).1 = l := by
  unfold add_device at h ⊢
  by_cases hlt : l.length < res
  · rw [if_pos hlt] at h
    simp at h
  · rw [if_neg hlt] at h ⊢
    dsimp only at h ⊢
    match l with
    | [] => rfl
    | h0 :: t =>
      unfold heappushpop at h ⊢
      dsimp only at h ⊢
      by_cases hd : devLt h0 d = true
      · rw [if_pos hd] at h
        simp only [Option.some.injEq] at h
        rw [h] at hd
        unfold devLt at hd
        simp at hd
      · rw [if_neg hd]

/-- Witness for C7: a full capacity-1 node holding a priority-3 device
rejects an equal-priority incoming device and is left unchanged. -/
theorem claim7_rejection_frame_witness :
    (add_device [⟨1, 3⟩] 1 ⟨2, 3⟩).1 = [⟨1, 3⟩] :=
  claim7_rejection_frame [⟨1, 3⟩] 1 ⟨2, 3⟩ (by decide)

/-- C8: `add_device` returns `None` exactly when the node's occupancy at call
time is strictly below its capacity, and in that case the device has been
added (the new collection is a permutation of the old one with the device
prepended — so no occupant was evicted). -/
theorem claim8_success_iff_below_capacity (l : List Device) (res : Nat)
    (d : Device) :
    ((add_device l res d).2 = none ↔ l.length < res) ∧
    (l.length < res → (add_device l res d).1 ~ d :: l) := by
  unfold add_device
  split
  · rename_i hlt
    exact ⟨iff_of_true rfl hlt, fun _ => heappush_perm l d⟩
  · rename_i hge
    exact ⟨iff_of_false (by simp) hge, fun hc => absurd hc hge⟩

/-- Witness for C8 at a concrete input. -/
theorem claim8_success_iff_below_capacity_witness :
    (add_device [⟨0, 2⟩] 2 ⟨1, 4⟩).2 = none ∧
    (add_device [⟨0, 2⟩] 2 ⟨1, 4⟩).1 ~ ⟨1, 4⟩ :: [⟨0, 2⟩] :=
  ⟨(claim8_success_iff_below_capacity [⟨0, 2⟩] 2 ⟨1, 4⟩).1.mpr (by decide),
   (claim8_success_iff_below_capacity [⟨0, 2⟩] 2 ⟨1, 4⟩).2 (by decide)⟩

/-- C10: `add_device` is total; in particular on a capacity-0 node (empty
collection at full occupancy, the edge case where `heappushpop` runs on an
empty list) it raises nothing, returns the incoming device itself, and leaves
the collection empty.  Totality of the embedding mirrors that no branch of
the Python code can raise: `heappushpop` on a falsy heap returns the item
without indexing. -/
theorem claim10_capacity_zero_total (d : Device) :
    add_device [] 0 d = ([], some d) := rfl

/-- Priority stored at index `i` of a heap list (0 for an out-of-range read;
all relevant reads are in range). -/
def prioAt (l : List Device) (i : Nat) : Nat := (l.getD i dDefault).priority

/-- The binary min-heap shape invariant maintained by CPython `heapq`: every
element is no smaller (by priority, the order `Device.__lt__` uses) than its
parent at index `(i - 1) / 2`. -/
def IsHeap (l : List Device) : Prop :=
  ∀ c, 0 < c → c < l.length → prioAt l ((c - 1) / 2) ≤ prioAt l c

theorem prioAt_set_ne (l : List Device) (i j : Nat) (a : Device)
    (h : i ≠ j) : prioAt (l.set i a) j = prioAt l j := by
  unfold prioAt
  rw [getD_set_ne l i j a h]

theorem prioAt_set_eq (l : List Device) (i : Nat) (a : Device)
    (h : i < l.length) : prioAt (l.set i a) i = a.priority := by
  unfold prioAt
  rw [getD_set_eq l i a h]

/-- In a heap, the root's priority is minimal. -/
theorem isHeap_root_le (l : List Device) (h : IsHeap l) :
    ∀ j, j < l.length → prioAt l 0 ≤ prioAt l j := by
  intro j
  induction j using Nat.strong_induction_on with
  | _ j ih =>
    intro hj
    by_cases hj0 : j = 0
    · subst hj0; exact le_refl _
    · exact le_trans
        (ih ((j - 1) / 2) (by omega) (by omega))
        (h j (by omega) hj)

/-- Priority the array `heap.set pos ni` holds at index `k`: the invariant
hypotheses of the sift lemmas are phrased through this "hole" view. -/
def holeVal (heap : List Device) (pos : Nat) (ni : Device) (k : Nat) : Nat :=
  if k = pos then ni.priority else prioAt heap k

theorem prioAt_set_holeVal (heap : List Device) (pos : Nat) (ni : Device)
    (hp : pos < heap.length) (k : Nat) :
    prioAt (heap.set pos ni) k = holeVal heap pos ni k := by
  unfold holeVal
  by_cases hk : k = pos
  · subst hk; rw [prioAt_set_eq heap k ni hp, if_pos rfl]
  · rw [prioAt_set_ne heap pos k ni (by omega), if_neg hk]

/-- Correctness of `siftdownLoop heap 0 pos ni`: if the array with `ni` at
the hole `pos` is heap-ordered except possibly on the edge from `pos`'s
parent to `pos`, and the grandparent of the hole already bounds the hole's
children, then the loop restores the full heap invariant. -/
theorem siftdownLoop_isHeap (pos : Nat) :
    ∀ (heap : List Device) (ni : Device), pos < heap.length →
    (∀ c, 0 < c → c < heap.length → c ≠ pos →
      holeVal heap pos ni ((c - 1) / 2) ≤ holeVal heap pos ni c) →
    (∀ g, 0 < pos → (g = 2 * pos + 1 ∨ g = 2 * pos + 2) → g < heap.length →
      prioAt heap ((pos - 1) / 2) ≤ prioAt heap g) →
    IsHeap (siftdownLoop heap 0 pos ni) := by
  induction pos using Nat.strong_induction_on with
  | _ pos ih =>
    intro heap ni hlen hA1 hA2
    unfold siftdownLoop
    split
    · dsimp only
      rename_i hpos0
      split
      · rename_i hdlt
        -- recursive case: the parent is strictly larger than ni and moves
        -- down into the hole; the hole moves up to parentpos
        have hppos : (pos - 1) / 2 < pos := by omega
        have hplen : (pos - 1) / 2 < heap.length := by omega
        have hnip : ni.priority < prioAt heap ((pos - 1) / 2) := by
          unfold devLt at hdlt
          unfold prioAt
          simpa using hdlt
        apply ih ((pos - 1) / 2) hppos
        · simp only [List.length_set]; exact hplen
        · -- re-established almost-heap condition at the new hole
          intro c hc0 hclen hcne
          simp only [List.length_set] at hclen
          have hval : ∀ k, k < heap.length →
              holeVal (heap.set pos (heap.getD ((pos - 1) / 2) dDefault))
                ((pos - 1) / 2) ni k =
              if k = (pos - 1) / 2 then ni.priority
              else if k = pos then prioAt heap ((pos - 1) / 2)
              else prioAt heap k := by
            intro k hk
            unfold holeVal
            by_cases h1 : k = (pos - 1) / 2
            · rw [if_pos h1, if_pos h1]
            · rw [if_neg h1, if_neg h1]
              by_cases h2 : k = pos
              · subst h2
                rw [prioAt_set_eq heap k _ hlen, if_pos rfl]
                rfl
              · rw [prioAt_set_ne heap pos k _ (by omega), if_neg h2]
          have hparlt : (c - 1) / 2 < heap.length := by omega
          rw [hval c (by omega), hval ((c - 1) / 2) hparlt]
          by_cases hcp : c = pos
          · -- edge from the new hole down to the moved parent
            have hpar : (c - 1) / 2 = (pos - 1) / 2 := by rw [hcp]
            rw [if_pos hpar, if_neg (show ¬ c = (pos - 1) / 2 by omega),
              if_pos hcp]
            exact le_of_lt hnip
          · by_cases hpp1 : (c - 1) / 2 = (pos - 1) / 2
            · -- sibling of the old hole under the new hole
              rw [if_neg hcp, if_pos hpp1, if_neg (by omega)]
              have := hA1 c hc0 (by omega) hcp
              unfold holeVal at this
              rw [if_neg hcp, hpp1, if_neg (by omega)] at this
              exact le_trans (le_of_lt hnip) this
            · by_cases hpp2 : (c - 1) / 2 = pos
              · -- children of the old hole, now holding the parent value
                rw [if_neg hcp, if_neg hpp1, if_pos hpp2, if_neg (by omega)]
                exact hA2 c (by omega) (by omega) (by omega)
              · -- pairs untouched by either hole
                rw [if_neg hcp, if_neg hpp1, if_neg hpp2,
                  if_neg (by omega)]
                have := hA1 c hc0 (by omega) hcp
                unfold holeVal at this
                rw [if_neg hcp, if_neg hpp2] at this
                exact this
        · -- re-established grandparent bound at the new hole
          intro g hpp0 hg hglen
          simp only [List.length_set] at hglen
          have hgne : g ≠ pos ∨ g = pos := (em (g = pos)).symm
          have hppne : ((pos - 1) / 2 - 1) / 2 ≠ pos := by omega
          rw [prioAt_set_ne heap pos _ _ (by omega)]
          by_cases hgp : g = pos
          · subst hgp
            rw [prioAt_set_eq heap g _ hlen]
            have := hA1 ((g - 1) / 2) (by omega) (by omega) (by omega)
            unfold holeVal at this
            rw [if_neg (by omega), if_neg (by omega)] at this
            exact this
          · rw [prioAt_set_ne heap pos g _ (by omega)]
            have h1 := hA1 g (by omega) hglen hgp
            unfold holeVal at h1
            rw [if_neg hgp, if_neg (by omega)] at h1
            have hgpar : (g - 1) / 2 = (pos - 1) / 2 := by omega
            rw [hgpar] at h1
            have h2 := hA1 ((pos - 1) / 2) (by omega) (by omega) (by omega)
            unfold holeVal at h2
            rw [if_neg (by omega), if_neg (by omega)] at h2
            exact le_trans h2 h1
      · -- stopping case: parent is not larger than ni, write ni at the hole
        rename_i hdge
        have hnip : ¬ ni.priority < (heap.getD ((pos - 1) / 2) dDefault).priority := by
          unfold devLt at hdge
          simpa using hdge
        intro c hc0 hclen
        simp only [List.length_set] at hclen
        rw [prioAt_set_holeVal heap pos ni hlen,
          prioAt_set_holeVal heap pos ni hlen]
        by_cases hcp : c = pos
        · subst hcp
          unfold holeVal
          rw [if_pos rfl, if_neg (by omega)]
          exact le_of_not_lt (fun hx => hnip hx)
        · exact hA1 c hc0 hclen hcp
    · -- pos = 0: the hole is the root, writing ni yields a heap directly
      rename_i hpos0
      intro c hc0 hclen
      simp only [List.length_set] at hclen
      have hp0 : pos = 0 := by omega
      subst hp0
      rw [prioAt_set_holeVal heap 0 ni hlen, prioAt_set_holeVal heap 0 ni hlen]
      exact hA1 c hc0 hclen (by omega)

/-- Invariant of the `siftupLoop` walk: the hole at `pos` (whose stored value
is junk) sinks to a leaf along the min-child path; away from the hole the
array stays heap-ordered, and the hole's parent always bounds the hole's
children.  The result's hole position is a leaf and the array is
heap-ordered away from it. -/
theorem siftupLoop_isHeapAux (n : Nat) : ∀ (heap : List Device) (pos : Nat),
    heap.length - pos ≤ n → pos < heap.length →
    (∀ c, 0 < c → c < heap.length → c ≠ pos → (c - 1) / 2 ≠ pos →
      prioAt heap ((c - 1) / 2) ≤ prioAt heap c) →
    (∀ g, 0 < pos → (g = 2 * pos + 1 ∨ g = 2 * pos + 2) → g < heap.length →
      prioAt heap ((pos - 1) / 2) ≤ prioAt heap g) →
    heap.length ≤ 2 * (siftupLoop heap heap.length pos).2 + 1 ∧
    (∀ c, 0 < c → c < heap.length → c ≠ (siftupLoop heap heap.length pos).2 →
      (c - 1) / 2 ≠ (siftupLoop heap heap.length pos).2 →
      prioAt (siftupLoop heap heap.length pos).1 ((c - 1) / 2) ≤
        prioAt (siftupLoop heap heap.length pos).1 c) := by
  induction n with
  | zero => intro heap pos hn hp; omega
  | succ n ih =>
    intro heap pos hn hp hB1 hB2
    unfold siftupLoop
    split
    · rename_i hc
      dsimp only
      set c := if 2 * pos + 1 + 1 < heap.length ∧
          ¬ devLt (heap.getD (2 * pos + 1) dDefault)
            (heap.getD (2 * pos + 1 + 1) dDefault) = true
        then 2 * pos + 1 + 1 else 2 * pos + 1 with hcdef
      have hcb : (c = 2 * pos + 1 ∨ c = 2 * pos + 2) ∧ c < heap.length := by
        rw [hcdef]; split
        · rename_i hcond; exact ⟨Or.inr rfl, hcond.1⟩
        · exact ⟨Or.inl rfl, hc⟩
      -- the chosen child has minimal priority among the hole's children
      have hcmin : ∀ s, (s = 2 * pos + 1 ∨ s = 2 * pos + 2) →
          s < heap.length → s ≠ c → prioAt heap c ≤ prioAt heap s := by
        intro s hs hslen hsne
        rw [hcdef]
        rw [hcdef] at hsne
        revert hsne
        split
        · rename_i hcond
          intro hsne
          have hs1 : s = 2 * pos + 1 := by omega
          have := hcond.2
          unfold devLt at this
          unfold prioAt
          subst hs1
          simpa using this
        · rename_i hcond
          intro hsne
          have hs2 : s = 2 * pos + 1 + 1 := by omega
          have hdl : devLt (heap.getD (2 * pos + 1) dDefault)
              (heap.getD (2 * pos + 1 + 1) dDefault) = true := by
            rcases not_and_or.mp hcond with h1 | h1
            · omega
            · simpa using h1
          unfold devLt at hdl
          unfold prioAt
          subst hs2
          exact le_of_lt (by simpa using hdl)
      have hlen2 : (heap.set pos (heap.getD c dDefault)).length =
          heap.length := List.length_set ..
      have hval : ∀ k, k < heap.length →
          prioAt (heap.set pos (heap.getD c dDefault)) k =
          if k = pos then prioAt heap c else prioAt heap k := by
        intro k hk
        by_cases hkp : k = pos
        · subst hkp
          rw [prioAt_set_eq heap k _ hp, if_pos rfl]
          rfl
        · rw [prioAt_set_ne heap pos k _ (by omega), if_neg hkp]
      have ihr := ih (heap.set pos (heap.getD c dDefault)) c
        (by rw [hlen2]; omega) (by rw [hlen2]; exact hcb.2) ?_ ?_
      · rw [hlen2] at ihr
        exact ihr
      · -- hB1 for the moved hole
        intro c2 hc20 hc2len hc2ne hc2np
        rw [hlen2] at hc2len
        rw [hval c2 hc2len, hval ((c2 - 1) / 2) (by omega)]
        by_cases hc2p : c2 = pos
        · -- the old hole now holds the chosen child value
          have hpar : (c2 - 1) / 2 ≠ pos := by omega
          rw [if_neg hpar, if_pos hc2p]
          have : (c2 - 1) / 2 = (pos - 1) / 2 := by rw [hc2p]
          rw [this]
          exact hB2 c (by omega) hcb.1 hcb.2
        · by_cases hc2par : (c2 - 1) / 2 = pos
          · -- sibling of the chosen child
            rw [if_pos hc2par, if_neg hc2p]
            exact hcmin c2 (by omega) hc2len hc2ne
          · rw [if_neg hc2par, if_neg hc2p]
            exact hB1 c2 hc20 hc2len hc2p hc2par
      · -- hB2 for the moved hole
        intro g hg0 hg hglen
        rw [hlen2] at hglen
        have hgpar : (c - 1) / 2 = pos := by omega
        have hgne : g ≠ pos := by omega
        rw [hval g (by omega), hval ((c - 1) / 2) (by omega)]
        rw [if_neg hgne, hgpar, if_pos rfl]
        have := hB1 g (by omega) hglen (by omega) (by omega)
        have hgp2 : (g - 1) / 2 = c := by omega
        rw [hgp2] at this
        exact this
    · rename_i hnc
      exact ⟨by omega, hB1⟩

/-- `siftup heap 0` (the only way the program calls `_siftup`) restores the
heap invariant when the array is heap-ordered everywhere except possibly on
the edges out of the root. -/
theorem siftup_zero_isHeap (heap : List Device) (h0 : 0 < heap.length)
    (hB1 : ∀ c, 0 < c → c < heap.length → (c - 1) / 2 ≠ 0 →
      prioAt heap ((c - 1) / 2) ≤ prioAt heap c) :
    IsHeap (siftup heap 0) := by
  unfold siftup
  dsimp only
  have haux := siftupLoop_isHeapAux heap.length heap 0 (by omega) h0
    (fun c hc0 hclen hcne hcnp => hB1 c hc0 hclen hcnp)
    (fun g hg0 => absurd hg0 (by omega))
  have hspec := siftupLoop_spec (heap.length - 0) heap 0 (le_refl _) h0
  have hlen : (siftupLoop heap heap.length 0).1.length = heap.length :=
    siftupLoop_length (heap.length - 0) heap heap.length 0 (le_refl _)
  apply siftdownLoop_isHeap (siftupLoop heap heap.length 0).2
  · rw [List.length_set, hlen]
    exact hspec.1
  · -- almost-heap hypothesis, vacuous around the leaf hole
    intro c hc0 hclen hcne
    rw [List.length_set, hlen] at hclen
    have hleaf := haux.1
    have hcnp : (c - 1) / 2 ≠ (siftupLoop heap heap.length 0).2 := by omega
    unfold holeVal
    rw [if_neg hcne, if_neg hcnp,
      prioAt_set_ne _ _ _ _ (fun h => hcnp h.symm),
      prioAt_set_ne _ _ _ _ (fun h => hcne h.symm)]
    exact haux.2 c hc0 (by omega) hcne hcnp
  · -- grandparent hypothesis, vacuous since the hole is a leaf
    intro g hg0 hg hglen
    rw [List.length_set, hlen] at hglen
    have hleaf := haux.1
    omega

theorem prioAt_append_left (l : List Device) (a : Device) (k : Nat)
    (h : k < l.length) : prioAt (l ++ [a]) k = prioAt l k := by
  unfold prioAt
  rw [List.getD_eq_getElem?_getD, List.getD_eq_getElem?_getD,
    List.getElem?_append_left h]

/-- `heappush` preserves the heap invariant. -/
theorem heappush_isHeap (heap : List Device) (item : Device)
    (h : IsHeap heap) : IsHeap (heappush heap item) := by
  unfold heappush siftdown
  have hget : (heap ++ [item]).getD heap.length dDefault = item := by
    simp [List.getD_eq_getElem?_getD, List.getElem?_append_right (le_refl _)]
  rw [hget]
  apply siftdownLoop_isHeap heap.length (heap ++ [item]) item (by simp)
  · intro c hc0 hclen hcne
    simp only [List.length_append, List.length_cons, List.length_nil] at hclen
    unfold holeVal
    rw [if_neg hcne, if_neg (show ¬ (c - 1) / 2 = heap.length by omega),
      prioAt_append_left heap item c (by omega),
      prioAt_append_left heap item ((c - 1) / 2) (by omega)]
    exact h c hc0 (by omega)
  · intro g hg0 hg hglen
    simp only [List.length_append, List.length_cons, List.length_nil] at hglen
    omega

theorem prioAt_cons_pos (a b : Device) (t : List Device) (k : Nat)
    (h : 0 < k) : prioAt (a :: t) k = prioAt (b :: t) k := by
  unfold prioAt
  match k, h with
  | k + 1, _ => rw [List.getD_cons_succ, List.getD_cons_succ]

/-- `heappushpop` preserves the heap invariant. -/
theorem heappushpop_isHeap (heap : List Device) (item : Device)
    (h : IsHeap heap) : IsHeap (heappushpop heap item).1 := by
  unfold heappushpop
  match heap with
  | [] =>
    intro c hc0 hclen
    simp at hclen
  | h0 :: t =>
    dsimp only
    split
    · apply siftup_zero_isHeap (item :: t) (by simp)
      intro c hc0 hclen hcnp
      simp only [List.length_cons] at hclen
      rw [prioAt_cons_pos item h0 t c hc0,
        prioAt_cons_pos item h0 t ((c - 1) / 2) (by omega)]
      exact h c hc0 (by simpa using hclen)
    · exact h

/-- `add_device` preserves the heap invariant, so every reachable device
collection of a node is a heap. -/
theorem add_device_isHeap (l : List Device) (res : Nat) (d : Device)
    (h : IsHeap l) : IsHeap (add_device l res d).1 := by
  unfold add_device
  split
  · exact heappush_isHeap l d h
  · exact heappushpop_isHeap l d h

theorem reachableDevs_isHeap (res : Nat) (l : List Device)
    (h : ReachableDevs res l) : IsHeap l := by
  induction h with
  | nil => intro c hc0 hclen; simp at hclen
  | step l d _ ih => exact add_device_isHeap l res d ih

theorem mem_prioAt (l : List Device) (x : Device) (hx : x ∈ l) :
    ∃ i, i < l.length ∧ prioAt l i = x.priority := by
  obtain ⟨i, hi, he⟩ := List.mem_iff_getElem.mp hx
  refine ⟨i, hi, ?_⟩
  unfold prioAt
  rw [List.getD_eq_getElem?_getD, List.getElem?_eq_getElem hi]
  rw [he]
  rfl

/-- C2: at full occupancy (with at least one occupant), `add_device D`
evicts some occupant `E ≠ D` exactly when `D`'s priority strictly exceeds the
priority of the weakest occupant (equivalently: some occupant is strictly
weaker); any evicted `E` is a weakest occupant with `E.priority <
D.priority`, and afterwards `D` is in the collection while `E` is not; when
no occupant is strictly weaker — in particular on priority ties — the
occupants are kept unchanged and `D` itself is returned (rejected).
Hypotheses: the collection is a `heapq` heap (true of every reachable
collection, `reachableDevs_isHeap`) and device ids are distinct, as in the
program. -/
theorem claim2_eviction_policy (res : Nat) (l : List Device) (dev : Device)
    (hheap : IsHeap l) (hfull : l.length = res) (hne : l ≠ [])
    (hnodup : ((dev :: l).map Device.id).Nodup) :
    ((∃ E, (add_device l res dev).2 = some E ∧ E ≠ dev) ↔
      ∃ x ∈ l, x.priority < dev.priority) ∧
    (∀ E, (add_device l res dev).2 = some E → E ≠ dev →
      E.priority < dev.priority ∧ (∀ x ∈ l, E.priority ≤ x.priority) ∧
      dev ∈ (add_device l res dev).1 ∧ E ∉ (add_device l res dev).1) ∧
    ((∀ x ∈ l, ¬ x.priority < dev.priority) →
      (add_device l res dev).2 = some dev ∧ (add_device l res dev).1 = l) := by
  have hnlt : ¬ l.length < res := by omega
  match l, hne with
  | h0 :: t, _ =>
    have hrootmin : ∀ x ∈ h0 :: t, h0.priority ≤ x.priority := by
      intro x hx
      obtain ⟨i, hi, hpe⟩ := mem_prioAt (h0 :: t) x hx
      have := isHeap_root_le (h0 :: t) hheap i hi
      rw [hpe] at this
      simpa [prioAt, List.getD_cons_zero] using this
    have hh0t : h0 ∉ t := by
      intro hmem
      have h2 : h0.id ∈ t.map Device.id := List.mem_map_of_mem Device.id hmem
      simp only [List.map_cons, List.nodup_cons] at hnodup
      exact hnodup.2.1 h2
    unfold add_device heappushpop
    rw [if_neg hnlt]
    dsimp only
    by_cases hd : devLt h0 dev = true
    · rw [if_pos hd]
      have hdp : h0.priority < dev.priority := by
        unfold devLt at hd; simpa using hd
      have hh0dev : h0 ≠ dev := fun he => by rw [he] at hdp; omega
      have hperm : siftup (dev :: t) 0 ~ dev :: t :=
        siftup_perm (dev :: t) 0 (by simp)
      refine ⟨iff_of_true ⟨h0, rfl, hh0dev⟩ ⟨h0, List.mem_cons_self h0 t, hdp⟩,
        ?_, ?_⟩
      · intro E hE hEne
        have hEh0 : E = h0 := by
          simpa using hE.symm
        subst hEh0
        refine ⟨hdp, hrootmin, ?_, ?_⟩
        · exact hperm.mem_iff.mpr (List.mem_cons_self dev t)
        · intro hmem
          rcases List.mem_cons.mp (hperm.mem_iff.mp hmem) with h1 | h1
          · exact hEne h1
          · exact hh0t h1
      · intro hall
        exact absurd hdp (hall h0 (List.mem_cons_self h0 t))
    · rw [if_neg hd]
      have hdp : dev.priority ≤ h0.priority := by
        unfold devLt at hd
        simp at hd
        omega
      refine ⟨iff_of_false ?_ ?_, ?_, fun _ => ⟨rfl, rfl⟩⟩
      · rintro ⟨E, hE, hEne⟩
        exact hEne (by simpa using hE.symm)
      · rintro ⟨x, hx, hxp⟩
        have := hrootmin x hx
        omega
      · intro E hE hEne
        exact absurd (by simpa using hE.symm) hEne

/-- Witness for C2 at a concrete eviction: a capacity-1 node holding a
priority-2 device receives a priority-3 device; the occupant is evicted, is
strictly weaker and weakest, and afterwards the incoming device is assigned
while the evicted one is not. -/
theorem claim2_eviction_policy_witness :
    (⟨1, 2⟩ : Device).priority < (⟨2, 3⟩ : Device).priority ∧
    (∀ x ∈ [(⟨1, 2⟩ : Device)], (⟨1, 2⟩ : Device).priority ≤ x.priority) ∧
    (⟨2, 3⟩ : Device) ∈ (add_device [⟨1, 2⟩] 1 ⟨2, 3⟩).1 ∧
    (⟨1, 2⟩ : Device) ∉ (add_device [⟨1, 2⟩] 1 ⟨2, 3⟩).1 :=
  (claim2_eviction_policy 1 [⟨1, 2⟩] ⟨2, 3⟩
    (by intro c hc0 hclen; simp at hclen; omega) rfl (by simp) (by simp)).2.1
    ⟨1, 2⟩ (by decide) (by decide)

/-- Python `range(a, b)` as a list of naturals. -/
def pyRange (a b : Nat) : List Nat := List.range' a (b - a)

/-- CPython `random.sample(population, k)`: returns `k` randomly chosen
distinct elements and raises `ValueError` exactly when `k` exceeds the
population size.  The randomness is abstracted by the oracle argument
`sampled` standing for the chosen elements; the error condition, which is
all claim C9 depends on, is modelled exactly. -/
def randomSample (population : List Nat) (k : Nat) (sampled : List Nat) :
    Except String (List Nat) :=
  if k ≤ population.length then Except.ok sampled
  else Except.error ("Sample larger than population or is negative")

/-- `constrained_sum_sample_pos(n, total)` (stable_marriage.py lines 22-28):
sort `n - 1` sampled dividers from `range(1, total)` and return consecutive
differences `[a - b for a, b in zip(dividers + [total], [0] + dividers)]`. -/
def constrained_sum_sample_pos (n total : Nat) (sampled : List Nat) :
    Except String (List Int) :=
  match randomSample (pyRange 1 total) (n - 1) sampled with
  | Except.error e => Except.error e
  | Except.ok ds =>
    let dividers := ds.mergeSort (fun a b => decide (a ≤ b))
    Except.ok (List.zipWith (fun a b => (a : Int) - (b : Int))
      (dividers ++ [total]) (0 :: dividers))

/-- `get_resources(N, U)` (stable_marriage.py lines 10-19): raise
`ValueError` when the device count is below the node count, otherwise
partition the `U` device slots over the `N` nodes. -/
def get_resources (N U : Nat) (sampled : List Nat) :
    Except String (List Int) :=
  if U < N then
    Except.error
      ("The number of devices must be greater or equal than the number of nodes.")
  else constrained_sum_sample_pos N U sampled

/-- C9: for positive node count `N` and device count `U`, `get_resources`
raises (returns an error) exactly when `U < N`; when `U ≥ N` it returns
normally — in particular the inner `random.sample(range(1, U), N - 1)` call
cannot itself raise, since `N - 1 ≤ U - 1`. -/
theorem claim9_get_resources_error_iff (N U : Nat) (sampled : List Nat)
    (hN : 0 < N) (hU : 0 < U) :
    (∃ e, get_resources N U sampled = Except.error e) ↔ U < N := by
  unfold get_resources
  split
  · rename_i hlt
    exact iff_of_true ⟨_, rfl⟩ hlt
  · rename_i hge
    unfold constrained_sum_sample_pos randomSample
    rw [if_pos (by
      unfold pyRange
      rw [List.length_range']
      omega)]
    refine iff_of_false ?_ hge
    rintro ⟨e, he⟩
    simp at he

/-- Witness for C9 at a concrete input: three nodes and two devices are
rejected at setup time. -/
theorem claim9_get_resources_error_iff_witness :
    ∃ e, get_resources 3 2 [] = Except.error e :=
  (claim9_get_resources_error_iff 3 2 [] (by decide) (by decide)).mpr
    (by decide)

/-- Mutable world state touched by a search: each node's fixed capacity and
its current device heap.  Node objects are identified by their ids; the graph
adjacency is passed separately since it is immutable. -/
structure SysState where
  caps : Nat → Nat
  assign : Nat → List Device

/-- How one `find_node` call ends: `placed n` models `add_device` returning
`None` at node `n` (break), `evicted d` models it returning a different
device, whose own search is then restarted (`d.assign_device()`; break), and
`exhausted` models the while-loop guard failing with the device unplaced. -/
inductive Outcome where
  | placed (n : Nat)
  | evicted (d : Device)
  | exhausted
deriving DecidableEq, Repr

/-- State of a `Probe` (stable_marriage.py lines 136-145).  The Python
frontier dict has contiguous integer keys `0..K` inserted in increasing
order, so it is modelled as a list indexed by distance whose last key is
`length - 1`.  `log` is ghost instrumentation recording `(distance, node)`
for every node visited during the current `find_node` call; it influences
nothing and exists only to state the frontier-growth invariant. -/
structure Probe where
  distance : Nat
  frontier : List (Finset Nat)
  visited : Finset Nat
  log : List (Nat × Nat)
deriving DecidableEq

/-- `Probe.__init__(node)`: distance 0, frontier `{0: {node}}`, empty
visited set. -/
def initProbe (node : Nat) : Probe := ⟨0, [{node}], ∅, []⟩

/-- One iteration of the `find_node` while-loop (stable_marriage.py lines
153-167).  `choose` stands for `rand_from_set`, abstracting the random pick.
Inside the guard `distance <= last frontier key`: take the unvisited part of
the current ring; if nonempty, visit one random candidate (update visited,
`setdefault` the next ring and add the candidate's neighbors into it), then
call `add_device` — `None` breaks with the device placed, a different device
(Python `!=` compares ids) breaks and restarts the evicted device, the same
device loops on; if the ring is exhausted, advance the distance. -/
def findStep (neighbors : Nat → Finset Nat) (choose : Finset Nat → Nat)
    (dev : Device) (w : SysState) (p : Probe) :
    (Outcome × SysState × Probe) ⊕ (SysState × Probe) :=
  if p.distance < p.frontier.length then
    let f := (p.frontier.getD p.distance ∅) \ p.visited
    if f.Nonempty then
      let n := choose f
      let fr1 := if p.frontier.length = p.distance + 1
        then p.frontier ++ [∅] else p.frontier
      let fr2 := fr1.set (p.distance + 1)
        ((fr1.getD (p.distance + 1) ∅) ∪ neighbors n)
      let p2 : Probe :=
        ⟨p.distance, fr2, insert n p.visited, p.log ++ [(p.distance, n)]⟩
      let r := add_device (w.assign n) (w.caps n) dev
      let w2 : SysState := ⟨w.caps, Function.update w.assign n r.1⟩
      match r.2 with
      | none => Sum.inl (Outcome.placed n, w2, p2)
      | some d =>
        if d.id = dev.id then Sum.inr (w2, p2)
        else Sum.inl (Outcome.evicted d, w2, p2)
    else
      Sum.inr (w, ⟨p.distance + 1, p.frontier, p.visited, p.log⟩)
  else
    Sum.inl (Outcome.exhausted, w, p)

/-- The `find_node` while-loop, with explicit fuel: `none` means the fuel ran
out before the loop reached a terminal outcome (the termination theorem shows
enough fuel always exists). -/
def findLoop (neighbors : Nat → Finset Nat) (choose : Finset Nat → Nat)
    (dev : Device) :
    Nat → SysState → Probe → Option (Outcome × SysState × Probe)
  | 0, _, _ => none
  | fuel + 1, w, p =>
    match findStep neighbors choose dev w p with
    | Sum.inl r => some r
    | Sum.inr (w2, p2) => findLoop neighbors choose dev fuel w2 p2

/-- The probe state on entry to the `find_node` loop (lines 151-152):
`distance` and `visited` are re-initialized, the frontier is left as it is
(the ghost visit log is cleared so it describes the new call). -/
def entryProbe (p : Probe) : Probe := ⟨0, p.frontier, ∅, []⟩

/-- `Probe.find_node(device)` (stable_marriage.py lines 147-167) on an
explicit probe state, returning the outcome, the mutated node assignments
and the final probe state. -/
def find_node (neighbors : Nat → Finset Nat) (choose : Finset Nat → Nat)
    (fuel : Nat) (dev : Device) (w : SysState) (p : Probe) :
    Option (Outcome × SysState × Probe) :=
  findLoop neighbors choose dev fuel w (entryProbe p)

/-- Deterministic stand-in for `rand_from_set` used on concrete runs: the
greatest element of the set (0 on the empty set).  Any member-picking
function is admissible; the general theorems only assume the membership
property below. -/
def chooseMax (s : Finset Nat) : Nat := s.fold max 0 id

theorem chooseMax_mem (s : Finset Nat) (hs : s.Nonempty) : chooseMax s ∈ s := by
  revert hs
  unfold chooseMax
  induction s using Finset.induction_on with
  | empty => intro hs; exact absurd hs (by simp)
  | insert ha ih =>
    rename_i a s
    intro _
    rw [Finset.fold_insert ha]
    by_cases hs2 : s.Nonempty
    · rcases le_total (Finset.fold max 0 id s) (id a) with h1 | h1
      · rw [max_eq_left h1]
        exact Finset.mem_insert_self a s
      · rw [max_eq_right h1]
        exact Finset.mem_insert_of_mem (ih hs2)
    · have hse : s = ∅ := Finset.not_nonempty_iff_eq_empty.mp hs2
      subst hse
      simp

/-- Probe component of a `findStep` result, whichever way the step ended. -/
def stepProbe :
    (Outcome × SysState × Probe) ⊕ (SysState × Probe) → Probe
  | Sum.inl r => r.2.2
  | Sum.inr r => r.2

/-- World component of a `findStep` result. -/
def stepWorld :
    (Outcome × SysState × Probe) ⊕ (SysState × Probe) → SysState
  | Sum.inl r => r.2.1
  | Sum.inr r => r.1

/-- Concrete graph with no edges, for witnesses and counterexamples. -/
def nbNone : Nat → Finset Nat := fun _ => ∅

/-- Concrete two-node cycle 0 - 1, for counterexamples. -/
def nbTwoCycle : Nat → Finset Nat :=
  fun n => if n = 0 then {1} else if n = 1 then {0} else ∅

/-- Concrete world where every node has capacity 0 and no assignments. -/
def capZeroWorld : SysState := ⟨fun _ => 0, fun _ => []⟩

/-- Concrete world where every node has capacity 1 and no assignments. -/
def capOneWorld : SysState := ⟨fun _ => 1, fun _ => []⟩

/-- C4 counterexample: the claim says every `find_node` call starts with the
frontier re-initialized to `{0: {origin}}`.  On a one-node graph with spare
capacity, the first call places the device after growing the frontier to
`[{0}, ∅]`; the restarted (second) call on the same probe then enters its
loop with that stale two-ring frontier, not with `[{0}]` — `find_node` resets
only `distance` and `visited`  (stable_marriage.py lines 151-152), never the
frontier. -/
theorem claim4_counterexample :
    (find_node nbNone chooseMax 5 ⟨0, 3⟩ capOneWorld (initProbe 0)).map
        (fun r => (entryProbe r.2.2).frontier) =
      some [({0} : Finset Nat), ∅] ∧
    some [({0} : Finset Nat), ∅] ≠ some [({0} : Finset Nat)] := by
  constructor
  · decide
  · decide

/-- C4 amended: at the start of every placement attempt (every `find_node`
call, including the restarted search of an evicted device) the `distance` and
the `visited` set are re-initialized to 0 and ∅, and the frontier maps
distance 0 to exactly the origin node on the probe's first attempt; but the
frontier mapping is NOT re-initialized — each call enters its loop with the
frontier exactly as the previous attempt left it. -/
theorem claim4_amended_reset (p : Probe) (node : Nat) :
    (entryProbe p).distance = 0 ∧ (entryProbe p).visited = ∅ ∧
    (entryProbe p).frontier = p.frontier ∧
    (entryProbe (initProbe node)).frontier = [{node}] ∧
    ∀ (neighbors : Nat → Finset Nat) (choose : Finset Nat → Nat)
      (fuel : Nat) (dev : Device) (w : SysState),
      find_node neighbors choose fuel dev w p =
        findLoop neighbors choose dev fuel w (entryProbe p) :=
  ⟨rfl, rfl, rfl, rfl, fun _ _ _ _ _ => rfl⟩

theorem fgetD_set_ne (l : List (Finset Nat)) (i j : Nat) (a : Finset Nat)
    (h : i ≠ j) : (l.set i a).getD j ∅ = l.getD j ∅ := by
  simp [List.getD_eq_getElem?_getD, List.getElem?_set_ne h]

theorem fgetD_set_eq (l : List (Finset Nat)) (i : Nat) (a : Finset Nat)
    (h : i < l.length) : (l.set i a).getD i ∅ = a := by
  simp [List.getD_eq_getElem?_getD, List.getElem?_set_self, h]

theorem fgetD_append_empty (l : List (Finset Nat)) (k : Nat) :
    (l ++ [∅]).getD k ∅ = l.getD k ∅ := by
  rcases lt_trichotomy k l.length with h | h | h
  · simp [List.getD_eq_getElem?_getD, List.getElem?_append_left h]
  · subst h
    simp [List.getD_eq_getElem?_getD,
      List.getElem?_append_right (le_refl l.length)]
  · rw [List.getD_eq_getElem?_getD, List.getD_eq_getElem?_getD,
      List.getElem?_eq_none (by simp; omega),
      List.getElem?_eq_none (by omega)]

/-- Union of the neighbor sets of all nodes the ghost log records as visited
at distance `d`. -/
def unionLog (neighbors : Nat → Finset Nat) (log : List (Nat × Nat))
    (d : Nat) : Finset Nat :=
  (log.filter (fun e => decide (e.1 = d))).foldr
    (fun e acc => neighbors e.2 ∪ acc) ∅

theorem foldr_union_init (neighbors : Nat → Finset Nat)
    (A : List (Nat × Nat)) (i : Finset Nat) :
    A.foldr (fun e acc => neighbors e.2 ∪ acc) i =
    A.foldr (fun e acc => neighbors e.2 ∪ acc) ∅ ∪ i := by
  induction A with
  | nil => simp
  | cons a A ih => simp [ih, Finset.union_assoc]

theorem unionLog_append (neighbors : Nat → Finset Nat)
    (log : List (Nat × Nat)) (e : Nat × Nat) (d : Nat) :
    unionLog neighbors (log ++ [e]) d =
    if e.1 = d then unionLog neighbors log d ∪ neighbors e.2
    else unionLog neighbors log d := by
  unfold unionLog
  rw [List.filter_append, List.foldr_append]
  by_cases he : e.1 = d
  · rw [if_pos he]
    have hfe : List.filter (fun e2 => decide (e2.1 = d)) [e] = [e] := by
      simp [he]
    rw [hfe]
    simp only [List.foldr_cons, List.foldr_nil]
    rw [foldr_union_init]
    simp
  · rw [if_neg he]
    have hfe : List.filter (fun e2 => decide (e2.1 = d)) [e] = [] := by
      simp [he]
    rw [hfe]
    rfl

theorem unionLog_eq_empty (neighbors : Nat → Finset Nat)
    (log : List (Nat × Nat)) (d : Nat) (h : ∀ e ∈ log, e.1 ≠ d) :
    unionLog neighbors log d = ∅ := by
  unfold unionLog
  rw [List.filter_eq_nil_iff.mpr (by intro e he; simpa using h e he)]
  rfl

/-- Invariant of a single `find_node` call on a fresh probe: `visited` is
exactly the set of logged nodes, no node is logged (visited) twice, every
logged distance already has its successor ring allocated, and each frontier
ring `d + 1` is exactly the union of the neighbor sets of the nodes visited
at distance `d` during this call. -/
def SearchInv (neighbors : Nat → Finset Nat) (p : Probe) : Prop :=
  p.visited = (p.log.map Prod.snd).toFinset ∧
  (p.log.map Prod.snd).Nodup ∧
  (∀ e ∈ p.log, e.1 + 2 ≤ p.frontier.length) ∧
  (∀ d, d + 1 < p.frontier.length →
    p.frontier.getD (d + 1) ∅ = unionLog neighbors p.log d)

/-- C5 counterexample: the claim says that throughout *every* `find_node`
call, frontier ring `d + 1` is exactly the union of the neighbor sets of the
nodes visited at distance `d` during that search.  On the two-node cycle with
zero capacities, the first call exhausts the graph leaving the frontier
`[{0}, {1}, {0}]`; one step into the restarted call, ring 2 still holds the
stale `{0}` although no node has been visited at distance 1 during that
search (the ghost log records the visits of the current call). -/
theorem claim5_counterexample :
    (find_node nbTwoCycle chooseMax 9 ⟨0, 3⟩ capZeroWorld
        (initProbe 0)).map (fun r => r.2.2) =
      some ⟨3, [{0}, {1}, {0}], {1, 0}, [(0, 0), (1, 1)]⟩ ∧
    (stepProbe (findStep nbTwoCycle chooseMax ⟨0, 3⟩ capZeroWorld
        (entryProbe
          ⟨3, [{0}, {1}, {0}], {1, 0}, [(0, 0), (1, 1)]⟩))).frontier.getD 2 ∅
      = {0} ∧
    unionLog nbTwoCycle
      (stepProbe (findStep nbTwoCycle chooseMax ⟨0, 3⟩ capZeroWorld
        (entryProbe ⟨3, [{0}, {1}, {0}], {1, 0}, [(0, 0), (1, 1)]⟩))).log 1
      = ∅ ∧
    ({0} : Finset Nat) ≠ (∅ : Finset Nat) := by
  refine ⟨by decide, by decide, by decide, by decide⟩

/-- C5 amended: the no-revisit half of the claim holds unconditionally for
every `find_node` call, restarted searches included — every loop step on any
probe state either leaves the visit log and the visited set unchanged, or
visits a node of the current ring that is not yet in the visited set, adding
exactly it to both; since each call enters its loop with an empty visited
set, no call ever visits a node twice.  The exact frontier-growth half holds
for searches run on a fresh probe: `SearchInv` — whose last clause says ring
`d + 1` equals the union of the neighbor sets of the nodes visited at
distance `d` during this call — holds on loop entry for a fresh probe and is
preserved by every loop step.  (For a restarted search on a used probe the
frontier half fails, see the counterexample; only rings retained from
earlier calls can exceed the union.) -/
theorem claim5_amended_frontier_growth (neighbors : Nat → Finset Nat)
    (choose : Finset Nat → Nat)
    (hch : ∀ s : Finset Nat, s.Nonempty → choose s ∈ s) :
    (∀ (dev : Device) (w : SysState) (p : Probe),
      ((stepProbe (findStep neighbors choose dev w p)).log = p.log ∧
       (stepProbe (findStep neighbors choose dev w p)).visited = p.visited) ∨
      (∃ n, n ∉ p.visited ∧ n ∈ p.frontier.getD p.distance ∅ ∧
        (stepProbe (findStep neighbors choose dev w p)).log =
          p.log ++ [(p.distance, n)] ∧
        (stepProbe (findStep neighbors choose dev w p)).visited =
          insert n p.visited)) ∧
    (∀ node, SearchInv neighbors (entryProbe (initProbe node))) ∧
    (∀ (dev : Device) (w : SysState) (p : Probe), SearchInv neighbors p →
      SearchInv neighbors (stepProbe (findStep neighbors choose dev w p)))
    := by
  refine ⟨?_, ?_, ?_⟩
  · -- unconditional no-revisit step property, for arbitrary probe states
    intro dev w p
    unfold findStep
    by_cases hguard : p.distance < p.frontier.length
    case neg =>
      rw [if_neg hguard]
      exact Or.inl ⟨rfl, rfl⟩
    case pos =>
      rw [if_pos hguard]
      dsimp only
      by_cases hfne : ((p.frontier.getD p.distance ∅) \ p.visited).Nonempty
      case neg =>
        rw [if_neg hfne]
        exact Or.inl ⟨rfl, rfl⟩
      case pos =>
        rw [if_pos hfne]
        set n := choose ((p.frontier.getD p.distance ∅) \ p.visited)
          with hndef
        have hnf : n ∈ (p.frontier.getD p.distance ∅) \ p.visited :=
          hch _ hfne
        have hnv : n ∉ p.visited := (Finset.mem_sdiff.mp hnf).2
        have hnfr : n ∈ p.frontier.getD p.distance ∅ :=
          (Finset.mem_sdiff.mp hnf).1
        match hr : (add_device (w.assign n) (w.caps n) dev).2 with
        | none =>
          exact Or.inr ⟨n, hnv, hnfr, rfl, rfl⟩
        | some d2 =>
          dsimp only
          by_cases hid : d2.id = dev.id
          · rw [if_pos hid]
            exact Or.inr ⟨n, hnv, hnfr, rfl, rfl⟩
          · rw [if_neg hid]
            exact Or.inr ⟨n, hnv, hnfr, rfl, rfl⟩
  · -- the invariant holds on loop entry for a fresh probe
    intro node
    refine ⟨by simp [entryProbe, initProbe], by simp [entryProbe, initProbe],
      by simp [entryProbe, initProbe], ?_⟩
    intro d hd
    simp only [entryProbe, initProbe, List.length_cons, List.length_nil] at hd
    omega
  · -- each loop step preserves the invariant
    intro dev w p hInv
    obtain ⟨hv, hnd, hb, hf⟩ := hInv
    unfold findStep
    by_cases hguard : p.distance < p.frontier.length
    case neg =>
      rw [if_neg hguard]
      exact ⟨hv, hnd, hb, hf⟩
    case pos =>
      rw [if_pos hguard]
      dsimp only
      by_cases hfne : ((p.frontier.getD p.distance ∅) \ p.visited).Nonempty
      case neg =>
        rw [if_neg hfne]
        exact ⟨hv, hnd, hb, hf⟩
      case pos =>
        rw [if_pos hfne]
        set n := choose ((p.frontier.getD p.distance ∅) \ p.visited)
          with hndef
        have hnf : n ∈ (p.frontier.getD p.distance ∅) \ p.visited :=
          hch _ hfne
        have hnv : n ∉ p.visited := (Finset.mem_sdiff.mp hnf).2
        have hnfr : n ∈ p.frontier.getD p.distance ∅ :=
          (Finset.mem_sdiff.mp hnf).1
        set fr1 := if p.frontier.length = p.distance + 1
          then p.frontier ++ [∅] else p.frontier with hfr1
        have hfr1len : p.frontier.length ≤ fr1.length ∧
            p.distance + 2 ≤ fr1.length := by
          rw [hfr1]; split
          · rename_i hap
            constructor
            · simp
            · simp [hap]
          · rename_i hap
            constructor
            · exact le_refl _
            · omega
        have hfr1get : ∀ k, fr1.getD k ∅ = p.frontier.getD k ∅ := by
          rw [hfr1]; split
          · exact fun k => fgetD_append_empty _ k
          · intro k; rfl
        set fr2 := fr1.set (p.distance + 1)
          ((fr1.getD (p.distance + 1) ∅) ∪ neighbors n) with hfr2
        have hfr2len : fr2.length = fr1.length := List.length_set ..
        have hInv2 : SearchInv neighbors
            ⟨p.distance, fr2, insert n p.visited,
              p.log ++ [(p.distance, n)]⟩ := by
          refine ⟨?_, ?_, ?_, ?_⟩
          · show insert n p.visited =
              ((p.log ++ [(p.distance, n)]).map Prod.snd).toFinset
            rw [List.map_append, List.toFinset_append, hv]
            ext x
            simp [Or.comm]
          · show ((p.log ++ [(p.distance, n)]).map Prod.snd).Nodup
            rw [List.map_append]
            refine List.Nodup.append hnd (by simp) ?_
            intro a ha hb2
            simp only [List.map_cons, List.map_nil, List.mem_singleton]
              at hb2
            subst hb2
            exact hnv (by rw [hv]; exact List.mem_toFinset.mpr ha)
          · show ∀ e ∈ p.log ++ [(p.distance, n)], e.1 + 2 ≤ fr2.length
            intro e he
            rcases List.mem_append.mp he with h1 | h1
            · have := hb e h1
              omega
            · simp only [List.mem_singleton] at h1
              subst h1
              omega
          · show ∀ d, d + 1 < fr2.length → fr2.getD (d + 1) ∅ =
              unionLog neighbors (p.log ++ [(p.distance, n)]) d
            intro d hd
            rw [unionLog_append]
            by_cases hdd : p.distance = d
            · subst hdd
              rw [if_pos rfl, hfr2,
                fgetD_set_eq _ _ _ (by omega), hfr1get]
              congr 1
              by_cases hin : p.distance + 1 < p.frontier.length
              · exact hf p.distance hin
              · rw [List.getD_eq_getElem?_getD,
                  List.getElem?_eq_none (by omega)]
                symm
                apply unionLog_eq_empty
                intro e he
                have := hb e he
                omega
            · rw [if_neg (by simpa using hdd), hfr2,
                fgetD_set_ne _ _ _ _ (by omega), hfr1get]
              apply hf d
              have hd1 : d + 1 < fr1.length := by omega
              rw [hfr1] at hd1
              revert hd1
              split
              · rename_i hap
                intro hd1
                simp only [List.length_append, List.length_cons,
                  List.length_nil] at hd1
                omega
              · exact fun hd1 => hd1
        match hr : (add_device (w.assign n) (w.caps n) dev).2 with
        | none =>
          exact hInv2
        | some d2 =>
          dsimp only
          by_cases hid : d2.id = dev.id
          · rw [if_pos hid]
            exact hInv2
          · rw [if_neg hid]
            exact hInv2

/-- Witness for the amended C5 theorem: the invariant holds after one step of
a fresh search on the one-node graph, with the hypotheses discharged at
`chooseMax`. -/
theorem claim5_amended_frontier_growth_witness :
    SearchInv nbNone (stepProbe (findStep nbNone chooseMax ⟨0, 3⟩
      capOneWorld (entryProbe (initProbe 0)))) :=
  ((claim5_amended_frontier_growth nbNone chooseMax
      (fun s hs => chooseMax_mem s hs)).2.2 ⟨0, 3⟩ capOneWorld
    (entryProbe (initProbe 0))
    ((claim5_amended_frontier_growth nbNone chooseMax
      (fun s hs => chooseMax_mem s hs)).2.1 0))

theorem fgetD_subset (l : List (Finset Nat)) (R : Finset Nat)
    (hl : ∀ f ∈ l, f ⊆ R) (k : Nat) : l.getD k ∅ ⊆ R := by
  by_cases hk : k < l.length
  · have hmem : l.getD k ∅ ∈ l := by
      rw [List.getD_eq_getElem?_getD, List.getElem?_eq_getElem hk]
      exact List.getElem_mem ..
    exact hl _ hmem
  · rw [List.getD_eq_getElem?_getD, List.getElem?_eq_none (by omega)]
    intro x hx
    simp at hx

/-- Termination of the `find_node` loop: starting from any probe state whose
frontier only mentions nodes of a neighbor-closed finite set `R`, the loop
reaches a terminal outcome within `2·|R| + (frontier length) - distance`
iterations, never having visited nodes outside `R`. -/
theorem findLoop_term (neighbors : Nat → Finset Nat)
    (choose : Finset Nat → Nat) (dev : Device) (R : Finset Nat)
    (hch : ∀ s : Finset Nat, s.Nonempty → choose s ∈ s)
    (hclosed : ∀ x ∈ R, neighbors x ⊆ R) :
    ∀ (fuel : Nat) (w : SysState) (p : Probe),
      (∀ f ∈ p.frontier, f ⊆ R) → p.visited ⊆ R →
      2 * (R \ p.visited).card + (p.frontier.length - p.distance) < fuel →
      ∃ o w2 p2,
        findLoop neighbors choose dev fuel w p = some (o, w2, p2) ∧
        p2.visited ⊆ R := by
  intro fuel
  induction fuel with
  | zero => intro w p hfr hvis hm; omega
  | succ fuel ih =>
    intro w p hfr hvis hm
    have hL : findLoop neighbors choose dev (fuel + 1) w p =
        match findStep neighbors choose dev w p with
        | Sum.inl r => some r
        | Sum.inr (w2, p2) => findLoop neighbors choose dev fuel w2 p2 := rfl
    rw [hL]
    unfold findStep
    by_cases hguard : p.distance < p.frontier.length
    case neg =>
      rw [if_neg hguard]
      exact ⟨_, _, _, rfl, hvis⟩
    case pos =>
      rw [if_pos hguard]
      dsimp only
      by_cases hfne : ((p.frontier.getD p.distance ∅) \ p.visited).Nonempty
      case neg =>
        rw [if_neg hfne]
        exact ih w _ hfr hvis (by
          simp only []
          omega)
      case pos =>
        rw [if_pos hfne]
        set n := choose ((p.frontier.getD p.distance ∅) \ p.visited)
          with hndef
        have hnf : n ∈ (p.frontier.getD p.distance ∅) \ p.visited :=
          hch _ hfne
        have hnv : n ∉ p.visited := (Finset.mem_sdiff.mp hnf).2
        have hnfr : n ∈ p.frontier.getD p.distance ∅ :=
          (Finset.mem_sdiff.mp hnf).1
        have hnR : n ∈ R := fgetD_subset p.frontier R hfr p.distance hnfr
        set fr1 := if p.frontier.length = p.distance + 1
          then p.frontier ++ [∅] else p.frontier with hfr1
        have hfr1len : p.frontier.length ≤ fr1.length ∧
            fr1.length ≤ p.frontier.length + 1 := by
          rw [hfr1]; split
          · simp
          · simp
        have hfr1sub : ∀ f ∈ fr1, f ⊆ R := by
          rw [hfr1]; split
          · intro f hf
            rcases List.mem_append.mp hf with h1 | h1
            · exact hfr f h1
            · simp only [List.mem_singleton] at h1
              subst h1
              intro x hx
              simp at hx
          · exact hfr
        have hfr1get : ∀ k, fr1.getD k ∅ ⊆ R :=
          fun k => fgetD_subset fr1 R hfr1sub k
        set fr2 := fr1.set (p.distance + 1)
          ((fr1.getD (p.distance + 1) ∅) ∪ neighbors n) with hfr2
        have hfr2len : fr2.length = fr1.length := List.length_set ..
        have hfr2sub : ∀ f ∈ fr2, f ⊆ R := by
          intro f hf
          rcases List.mem_or_eq_of_mem_set hf with h1 | h1
          · exact hfr1sub f h1
          · subst h1
            exact Finset.union_subset (hfr1get _) (hclosed n hnR)
        have hv2 : insert n p.visited ⊆ R :=
          Finset.insert_subset_iff.mpr ⟨hnR, hvis⟩
        have hcard : (R \ insert n p.visited).card < (R \ p.visited).card := by
          have h1 : R \ insert n p.visited = (R \ p.visited).erase n := by
            ext x
            simp only [Finset.mem_sdiff, Finset.mem_insert,
              Finset.mem_erase]
            tauto
          rw [h1]
          exact Finset.card_erase_lt_of_mem (Finset.mem_sdiff.mpr ⟨hnR, hnv⟩)
        match hr : (add_device (w.assign n) (w.caps n) dev).2 with
        | none =>
          exact ⟨_, _, _, rfl, hv2⟩
        | some d2 =>
          dsimp only
          by_cases hid : d2.id = dev.id
          · rw [if_pos hid]
            exact ih _ _ hfr2sub hv2 (by dsimp only; omega)
          · rw [if_neg hid]
            exact ⟨_, _, _, rfl, hv2⟩

/-- C3: every search run terminates, with work bounded in terms of the nodes
reachable from its origin.  For any neighbor-closed finite node set `R`
covering the probe's frontier (for a fresh probe rooted at the device's
origin, any closed `R` containing the origin — in particular, the set of
nodes reachable from the origin), `find_node` reaches a terminal outcome
(placed, evicted or exhausted) within `2·|R| + frontier length + 1` loop
iterations, and the nodes it visits form a subset of `R`, so at most `|R|`
of them.  The statement covers restarted searches of evicted devices as
well, since the probe state is arbitrary. -/
theorem claim3_search_terminates (neighbors : Nat → Finset Nat)
    (choose : Finset Nat → Nat) (dev : Device) (w : SysState) (p : Probe)
    (R : Finset Nat)
    (hch : ∀ s : Finset Nat, s.Nonempty → choose s ∈ s)
    (hclosed : ∀ x ∈ R, neighbors x ⊆ R)
    (hfr : ∀ f ∈ p.frontier, f ⊆ R) :
    ∃ o w2 p2,
      find_node neighbors choose (2 * R.card + p.frontier.length + 1) dev w p
        = some (o, w2, p2) ∧
      p2.visited ⊆ R ∧ p2.visited.card ≤ R.card := by
  have h := findLoop_term neighbors choose dev R hch hclosed
    (2 * R.card + p.frontier.length + 1) w (entryProbe p) hfr
    (by intro x hx; simp [entryProbe] at hx)
    (by simp [entryProbe, Finset.sdiff_empty])
  obtain ⟨o, w2, p2, heq, hsub⟩ := h
  exact ⟨o, w2, p2, heq, hsub, Finset.card_le_card hsub⟩

/-- Witness for C3: on the one-node graph, the search from node 0 terminates
within the stated bound having visited only nodes of `R = {0}`. -/
theorem claim3_search_terminates_witness :
    ∃ o w2 p2,
      find_node nbNone chooseMax
          (2 * ({0} : Finset Nat).card + (initProbe 0).frontier.length + 1)
          ⟨0, 3⟩ capOneWorld (initProbe 0) = some (o, w2, p2) ∧
      p2.visited ⊆ ({0} : Finset Nat) ∧
      p2.visited.card ≤ ({0} : Finset Nat).card :=
  claim3_search_terminates nbNone chooseMax ⟨0, 3⟩ capOneWorld (initProbe 0)
    {0} (fun s hs => chooseMax_mem s hs) (by decide) (by decide)

theorem add_device_none_spec (l : List Device) (res : Nat) (d : Device)
    (h : (add_device l res d).2 = none) :
    l.length < res ∧ (add_device l res d).1 ~ d :: l := by
  unfold add_device at h ⊢
  by_cases hlt : l.length < res
  · rw [if_pos hlt]
    exact ⟨hlt, heappush_perm l d⟩
  · rw [if_neg hlt] at h
    simp at h

theorem add_device_some_spec (l : List Device) (res : Nat) (d : Device)
    (E : Device) (h : (add_device l res d).2 = some E) :
    (E = d ∧ (add_device l res d).1 = l) ∨
    (∃ t, l = E :: t ∧ (add_device l res d).1 ~ d :: t) := by
  unfold add_device at h ⊢
  by_cases hlt : l.length < res
  · rw [if_pos hlt] at h
    simp at h
  · rw [if_neg hlt] at h ⊢
    dsimp only at h ⊢
    match l with
    | [] =>
      left
      refine ⟨by simpa using h.symm, rfl⟩
    | h0 :: t =>
      unfold heappushpop at h ⊢
      dsimp only at h ⊢
      by_cases hd : devLt h0 d = true
      · rw [if_pos hd] at h ⊢
        right
        refine ⟨t, ?_, siftup_perm (d :: t) 0 (by simp)⟩
        simp only [Option.some.injEq] at h
        rw [h]
      · rw [if_neg hd] at h ⊢
        left
        exact ⟨by simpa using h.symm, rfl⟩

/-- Each program device appears in at most one node's collection, once: every
node's heap has pairwise distinct device ids, and no id appears in two
different nodes' heaps. -/
def Consistent (w : SysState) (NS : Finset Nat) : Prop :=
  (∀ n ∈ NS, ((w.assign n).map Device.id).Nodup) ∧
  (∀ n ∈ NS, ∀ m ∈ NS, n ≠ m →
    ∀ i ∈ (w.assign n).map Device.id, i ∉ (w.assign m).map Device.id)

/-- C6: after each completed `add_device` step of a search (each `findStep`),
every device still appears in at most one node's collection.  If the step
places the searching device it is in exactly the visited node's collection;
if the step evicts a device `E`, then `E` is in no collection at all when its
re-search starts; if the step is a rejection, the searching device remains
unassigned.  Hypotheses: the searching device is currently unassigned (true
of a fresh device, and of an evicted device by this very theorem), the
frontier stays within the node set `NS`, and the world is consistent. -/
theorem claim6_at_most_one_assignment (neighbors : Nat → Finset Nat)
    (choose : Finset Nat → Nat) (dev : Device) (w : SysState) (p : Probe)
    (NS : Finset Nat)
    (hch : ∀ s : Finset Nat, s.Nonempty → choose s ∈ s)
    (hfr : ∀ f ∈ p.frontier, f ⊆ NS)
    (hcons : Consistent w NS)
    (hdev : ∀ m ∈ NS, dev.id ∉ (w.assign m).map Device.id) :
    Consistent (stepWorld (findStep neighbors choose dev w p)) NS ∧
    (∀ n0 w2 p2, findStep neighbors choose dev w p =
        Sum.inl (Outcome.placed n0, w2, p2) →
      dev.id ∈ (w2.assign n0).map Device.id ∧
      ∀ m ∈ NS, m ≠ n0 → dev.id ∉ (w2.assign m).map Device.id) ∧
    (∀ E w2 p2, findStep neighbors choose dev w p =
        Sum.inl (Outcome.evicted E, w2, p2) →
      ∀ m ∈ NS, E.id ∉ (w2.assign m).map Device.id) ∧
    (∀ w2 p2, findStep neighbors choose dev w p = Sum.inr (w2, p2) →
      ∀ m ∈ NS, dev.id ∉ (w2.assign m).map Device.id) := by
  obtain ⟨hnd, hpair⟩ := hcons
  unfold findStep
  by_cases hguard : p.distance < p.frontier.length
  case neg =>
    rw [if_neg hguard]
    refine ⟨⟨hnd, hpair⟩, ?_, ?_, ?_⟩
    · intro n0 w2 p2 heq; simp at heq
    · intro E w2 p2 heq; simp at heq
    · intro w2 p2 heq; simp at heq
  case pos =>
    rw [if_pos hguard]
    dsimp only
    by_cases hfne : ((p.frontier.getD p.distance ∅) \ p.visited).Nonempty
    case neg =>
      rw [if_neg hfne]
      refine ⟨⟨hnd, hpair⟩, ?_, ?_, ?_⟩
      · intro n0 w2 p2 heq; simp at heq
      · intro E w2 p2 heq; simp at heq
      · intro w2 p2 heq
        have hw2 : w2 = w := by
          simp only [Sum.inr.injEq, Prod.mk.injEq] at heq
          exact heq.1.symm
        subst hw2
        exact hdev
    case pos =>
      rw [if_pos hfne]
      set n := choose ((p.frontier.getD p.distance ∅) \ p.visited)
        with hndef
      have hnf : n ∈ (p.frontier.getD p.distance ∅) \ p.visited :=
        hch _ hfne
      have hnfr : n ∈ p.frontier.getD p.distance ∅ :=
        (Finset.mem_sdiff.mp hnf).1
      have hnNS : n ∈ NS := fgetD_subset p.frontier NS hfr p.distance hnfr
      match hr : (add_device (w.assign n) (w.caps n) dev).2 with
      | none =>
        obtain ⟨hlt, hperm⟩ := add_device_none_spec _ _ _ hr
        have hids : (add_device (w.assign n) (w.caps n) dev).1.map Device.id
            ~ dev.id :: (w.assign n).map Device.id := hperm.map Device.id
        dsimp only [stepWorld]
        refine ⟨⟨?_, ?_⟩, ?_, ?_, ?_⟩
        · -- per-node nodup after placement
          intro m hm
          dsimp only
          by_cases hmn : m = n
          · rw [hmn, Function.update_same, hids.nodup_iff]
            exact List.Nodup.cons (hdev n hnNS) (hnd n hnNS)
          · rw [Function.update_noteq hmn]
            exact hnd m hm
        · -- pairwise disjointness after placement
          intro m1 hm1 m2 hm2 hne i hi
          dsimp only at hi ⊢
          by_cases hm1n : m1 = n
          · have hm2n : m2 ≠ n := fun h => hne (hm1n.trans h.symm)
            rw [hm1n, Function.update_same] at hi
            rw [Function.update_noteq hm2n]
            rcases List.mem_cons.mp (hids.mem_iff.mp hi) with h1 | h1
            · rw [h1]
              exact hdev m2 hm2
            · exact hpair n hnNS m2 hm2 (fun h => hm2n h.symm) i h1
          · rw [Function.update_noteq hm1n] at hi
            by_cases hm2n : m2 = n
            · rw [hm2n, Function.update_same]
              intro hmem
              rcases List.mem_cons.mp (hids.mem_iff.mp hmem) with h1 | h1
              · rw [h1] at hi
                exact hdev m1 hm1 hi
              · exact hpair m1 hm1 n hnNS hm1n i hi h1
            · rw [Function.update_noteq hm2n]
              exact hpair m1 hm1 m2 hm2 hne i hi
        · -- placed: the device is in the visited node, and only there
          intro n0 w20 p20 heq
          simp only [Sum.inl.injEq, Prod.mk.injEq, Outcome.placed.injEq]
            at heq
          obtain ⟨hn0, hw0, hp0⟩ := heq
          rw [← hn0, ← hw0]
          constructor
          · dsimp only
            rw [Function.update_same]
            exact hids.mem_iff.mpr (List.mem_cons_self ..)
          · intro m hm hmn
            dsimp only
            rw [Function.update_noteq hmn]
            exact hdev m hm
        · intro E w20 p20 heq
          simp at heq
        · intro w20 p20 heq
          simp at heq
      | some d2 =>
        dsimp only
        by_cases hid : d2.id = dev.id
        · -- rejection: same id returned means the very device came back
          rw [if_pos hid]
          dsimp only [stepWorld]
          rcases add_device_some_spec _ _ _ _ hr with ⟨hEd, hunch⟩ |
            ⟨t, hlt2, hperm⟩
          · have hupd : Function.update w.assign n
                (add_device (w.assign n) (w.caps n) dev).1 = w.assign := by
              rw [hunch]
              exact Function.update_eq_self n w.assign
            refine ⟨⟨?_, ?_⟩, ?_, ?_, ?_⟩
            · intro m hm
              dsimp only
              rw [hupd]
              exact hnd m hm
            · intro m1 hm1 m2 hm2 hne i hi
              dsimp only at hi ⊢
              rw [hupd] at hi ⊢
              exact hpair m1 hm1 m2 hm2 hne i hi
            · intro n0 w20 p20 heq
              simp at heq
            · intro E w20 p20 heq
              simp at heq
            · intro w20 p20 heq
              simp only [Sum.inr.injEq, Prod.mk.injEq] at heq
              rw [← heq.1]
              intro m hm
              dsimp only
              rw [hupd]
              exact hdev m hm
          · exfalso
            have hmem : d2.id ∈ (w.assign n).map Device.id := by
              rw [hlt2]
              exact List.mem_map_of_mem Device.id (List.mem_cons_self ..)
            rw [hid] at hmem
            exact hdev n hnNS hmem
        · -- eviction: the popped occupant leaves every collection
          rw [if_neg hid]
          dsimp only [stepWorld]
          rcases add_device_some_spec _ _ _ _ hr with ⟨hEd, hunch⟩ |
            ⟨t, hlt2, hperm⟩
          · exact absurd (by rw [hEd]) hid
          · have hids :
                (add_device (w.assign n) (w.caps n) dev).1.map Device.id
                ~ dev.id :: t.map Device.id := hperm.map Device.id
            have hidl : (w.assign n).map Device.id =
                d2.id :: t.map Device.id := by
              rw [hlt2, List.map_cons]
            have hndn := hnd n hnNS
            rw [hidl, List.nodup_cons] at hndn
            have hdevn := hdev n hnNS
            rw [hidl] at hdevn
            have hdevt : dev.id ∉ t.map Device.id := fun h =>
              hdevn (List.mem_cons_of_mem _ h)
            have hsub : ∀ i, i ∈ t.map Device.id →
                i ∈ (w.assign n).map Device.id := by
              intro i hi
              rw [hidl]
              exact List.mem_cons_of_mem _ hi
            refine ⟨⟨?_, ?_⟩, ?_, ?_, ?_⟩
            · intro m hm
              dsimp only
              by_cases hmn : m = n
              · rw [hmn, Function.update_same, hids.nodup_iff]
                exact List.Nodup.cons hdevt hndn.2
              · rw [Function.update_noteq hmn]
                exact hnd m hm
            · intro m1 hm1 m2 hm2 hne i hi
              dsimp only at hi ⊢
              by_cases hm1n : m1 = n
              · have hm2n : m2 ≠ n := fun h => hne (hm1n.trans h.symm)
                rw [hm1n, Function.update_same] at hi
                rw [Function.update_noteq hm2n]
                rcases List.mem_cons.mp (hids.mem_iff.mp hi) with h1 | h1
                · rw [h1]
                  exact hdev m2 hm2
                · exact hpair n hnNS m2 hm2 (fun h => hm2n h.symm) i
                    (hsub i h1)
              · rw [Function.update_noteq hm1n] at hi
                by_cases hm2n : m2 = n
                · rw [hm2n, Function.update_same]
                  intro hmem
                  rcases List.mem_cons.mp (hids.mem_iff.mp hmem) with
                    h1 | h1
                  · rw [h1] at hi
                    exact hdev m1 hm1 hi
                  · exact hpair m1 hm1 n hnNS hm1n i hi (hsub i h1)
                · rw [Function.update_noteq hm2n]
                  exact hpair m1 hm1 m2 hm2 hne i hi
            · intro n0 w20 p20 heq
              simp at heq
            · -- the evicted device is in no collection afterwards
              intro E w20 p20 heq
              simp only [Sum.inl.injEq, Prod.mk.injEq,
                Outcome.evicted.injEq] at heq
              obtain ⟨hE, hw0, hp0⟩ := heq
              rw [← hE, ← hw0]
              intro m hm
              dsimp only
              by_cases hmn : m = n
              · rw [hmn, Function.update_same]
                intro hmem
                rcases List.mem_cons.mp (hids.mem_iff.mp hmem) with h1 | h1
                · exact hid h1
                · exact hndn.1 h1
              · rw [Function.update_noteq hmn]
                have hd2n : d2.id ∈ (w.assign n).map Device.id := by
                  rw [hidl]
                  exact List.mem_cons_self ..
                exact hpair n hnNS m hm (fun h => hmn h.symm) d2.id hd2n
            · intro w20 p20 heq
              simp at heq

/-- Witness for C6: one placement step on the one-node graph keeps the world
consistent, with all hypotheses discharged at concrete inputs. -/
theorem claim6_at_most_one_assignment_witness :
    Consistent (stepWorld (findStep nbNone chooseMax ⟨0, 3⟩ capOneWorld
      (entryProbe (initProbe 0)))) ({0} : Finset Nat) :=
  (claim6_at_most_one_assignment nbNone chooseMax ⟨0, 3⟩ capOneWorld
    (entryProbe (initProbe 0)) {0} (fun s hs => chooseMax_mem s hs)
    (by decide) ⟨by decide, by decide⟩ (by decide)).1

end StableMarriage
